import Mathlib

/-!
Shallow embedding of the Tree_of_Virtual_Life skill-tree application
(node/edge stores persisted to browser localStorage, the create-node
dialog, drag persistence, CSV export, and the curved-link geometry),
together with proofs of the specified properties.

JS numbers are modelled as exact rationals (`ℚ`) where the code only
performs field operations and comparisons that the claims read at exact
precision, and as reals (`ℝ`) where the code takes square roots
(`Math.hypot`).
-/

namespace TOL

/-! ### JS numeric primitives -/

/-- JS `Math.round` on a rational: rounds to the nearest integer,
halves toward positive infinity. -/
def jsRound (q : ℚ) : ℤ := ⌊q + 1/2⌋

/-- `UINode.applyMeta` difficulty update (src/src/UINode.tsx 391-402):
`this.difficulty = Math.max(0, Math.min(33, Math.round(meta.difficulty)))`,
executed when `typeof meta.difficulty === "number"`.  The numeric argument
is modelled as a rational. -/
def applyMetaDifficulty (d : ℚ) : ℤ := max 0 (min 33 (jsRound d))

/-! ### HTML number-input parsing (create-node dialog)

The dialog's difficulty field is an `<input type="number">`
(CreateNodeDialog.ts: `inputDiff.type = "number"`), so by the HTML value
sanitization algorithm its `.value` is either a *valid floating-point
number* string or the empty string.  `form.onsubmit` then computes
`Math.max(0, Math.min(33, Math.round(Number(inputDiff.value || "0"))))`.
We embed the valid-floating-point-number grammar (optional `-`, one or
more digits, optional `.` and digits, optional exponent) as an exact
rational parser; a string the grammar rejects is sanitized to `""` by the
browser and so is routed through `Number("0") = 0`. -/

/-- Numeric value of a list of decimal digit characters (most significant
first), as accumulated by positional notation. -/
def digitsVal (l : List Char) : ℕ :=
  l.foldl (fun a c => 10 * a + (c.toNat - 48)) 0

/-- Exponent part of an HTML valid floating-point number:
`[eE][+-]?digits`, or nothing.  Returns the exponent, or `none` when the
remaining characters are not a valid (possibly empty) exponent part. -/
def parseExpPart : List Char → Option ℤ
  | [] => some 0
  | c :: r =>
    if c = 'e' ∨ c = 'E' then
      let (sgn, r1) : ℤ × List Char :=
        match r with
        | '+' :: t => (1, t)
        | '-' :: t => (-1, t)
        | _ => (1, r)
      let ed := r1.takeWhile Char.isDigit
      let r2 := r1.dropWhile Char.isDigit
      if ed = [] ∨ r2 ≠ [] then none else some (sgn * digitsVal ed)
    else none

/-- Parser for the HTML *valid floating-point number* grammar
(optional `-`, then an integer digit series and/or a `.` followed by one
or more digits — so `5`, `5.25` and `.5` are valid while `5.`, `.` and
the empty string are not — then an optional exponent), returning the
sign, integer-part value, fraction-part value, fraction length and
exponent, or `none` when the string is not valid. -/
def parseHTMLFloatParts (s : String) : Option (Bool × ℕ × ℕ × ℕ × ℤ) :=
  let cs := s.data
  let (neg, cs1) : Bool × List Char :=
    match cs with
    | '-' :: r => (true, r)
    | _ => (false, cs)
  let ip := cs1.takeWhile Char.isDigit
  let cs2 := cs1.dropWhile Char.isDigit
  let (fp, cs3) : List Char × List Char :=
    match cs2 with
    | '.' :: r => (r.takeWhile Char.isDigit, r.dropWhile Char.isDigit)
    | _ => ([], cs2)
  if ip = [] ∧ fp = [] then none
  else if cs2.head? = some '.' ∧ fp = [] then none
  else
    match parseExpPart cs3 with
    | none => none
    | some e => some (neg, digitsVal ip, digitsVal fp, fp.length, e)

/-- Rational value of a parsed floating-point number:
`±(intPart + fracPart / 10^fracLen) · 10^exp`. -/
def floatPartsVal : Bool × ℕ × ℕ × ℕ × ℤ → ℚ
  | (neg, i, f, k, e) =>
    (if neg then -1 else 1) * ((i : ℚ) + (f : ℚ) / 10 ^ k) * (10 : ℚ) ^ e

/-- Exact rational value of an HTML valid floating-point number string
(`none` when the string is not valid).  This models JS
`Number(v)` for the values a sanitized number input can hold. -/
def parseHTMLFloat (s : String) : Option ℚ :=
  (parseHTMLFloatParts s).map floatPartsVal

/-- The browser's value sanitization for `<input type="number">`: a value
that is not a valid floating-point number is replaced by `""`. -/
def sanitizeNumberValue (s : String) : String :=
  if (parseHTMLFloat s).isSome then s else ""

/-- Difficulty computed by the create-node dialog submit handler
(CreateNodeDialog.ts `form.onsubmit`):
`Math.max(0, Math.min(33, Math.round(Number(inputDiff.value || "0"))))`,
where `inputDiff.value` is the sanitized value of the number input whose
raw content is `s`. -/
def submittedDifficulty (s : String) : ℤ :=
  let v := sanitizeNumberValue s
  let v0 := if v = "" then "0" else v
  max 0 (min 33 (jsRound ((parseHTMLFloat v0).getD 0)))

/-! ### Store loading (C3) -/

/-- `createNodeStore.load` / `createEdgeStore.load`
(src/src/main.tsx 21-28, main (part_003) 97-105):
```
try {
  const raw = localStorage.getItem(KEY);
  xs = raw ? (JSON.parse(raw) as T[]) : [];
} catch { xs = []; }
```
`raw` is `none` when the key is absent; `raw ? _ : []` takes the empty
branch when `raw` is the (falsy) empty string; and a `JSON.parse` throw
(modelled by the parameter `parse` returning `none`) is caught, leaving
the empty list. -/
def loadStore {α : Type} (parse : String → Option (List α))
    (raw : Option String) : List α :=
  match raw with
  | none => []
  | some s => if s = "" then [] else (parse s).getD []

/-! ### Node and edge data model -/

/-- `NodeStatus` (src/src/nodeTypes.tsx 5-9). -/
inductive NodeStatus
  | Locked
  | Available
  | Learned
deriving DecidableEq

/-- A stored node row (`StoredNode`, src/src/main.tsx 16): id,
design-space coordinates and status.  Coordinates are JS numbers,
modelled as reals. -/
structure StoredNode where
  id : String
  x : ℝ
  y : ℝ
  status : NodeStatus

/-- `EdgeKind` (src/src/UIEdge.tsx 4): `"linear" | "curvy"`. -/
inductive EdgeKind
  | linear
  | curvy
deriving DecidableEq

/-- A stored edge row (`StoredEdge`, main (part_003) 17): endpoint node
ids (`from`/`to`, renamed `efrom`/`eto` because `from` is a Lean
keyword) and an optional visual kind (`kind?: EdgeKind`). -/
structure StoredEdge where
  efrom : String
  eto : String
  kind : Option EdgeKind
deriving DecidableEq

/-! ### Edge rendering (C4) -/

/-- A rendered edge (`new UIEdge(from, to, kind)`, src/src/UIEdge.tsx):
the two endpoint nodes that were looked up in the node map, and the
kind. -/
structure RenderedEdge (ν : Type) where
  fromNode : ν
  toNode : ν
  kind : EdgeKind

/-- `rebuildEdges` (main (part_003) 228-243): for each stored edge look
up both endpoints in the node map; skip the edge when either is missing
(`if (!from || !to) continue`), otherwise render it with
`kind = e.kind ?? "curvy"`. -/
def rebuildEdges {ν : Type} (nodeMap : String → Option ν)
    (edges : List StoredEdge) : List (RenderedEdge ν) :=
  edges.filterMap fun e =>
    match nodeMap e.efrom, nodeMap e.eto with
    | some f, some t => some ⟨f, t, e.kind.getD EdgeKind.curvy⟩
    | _, _ => none

/-! ### Node update / drag persistence (C5) -/

/-- `createNodeStore.update` (main (part_003) 58-64): find the index of
the row with the given id (`findIndex`); if found, replace that row by a
copy with the new coordinates and save. -/
def updateNode (nodes : List StoredNode) (id : String) (x y : ℝ) :
    List StoredNode :=
  match nodes.findIdx? (fun n => n.id == id) with
  | some i =>
    match nodes[i]? with
    | some n => nodes.set i { n with x := x, y := y }
    | none => nodes
  | none => nodes

/-- `UINode.persistXY` (src/src/UINode.tsx 378-389): parse the stored
node list, `find` the first row with this node's id, and when present
overwrite that row's `x`/`y` in place and save the list back.  Modelled
on the parsed list; the in-place mutation of the found row rewrites the
first row whose id matches. -/
def persistXY (list : List StoredNode) (id : String) (x y : ℝ) :
    List StoredNode :=
  match list with
  | [] => []
  | n :: rest =>
    if n.id = id then { n with x := x, y := y } :: rest
    else n :: persistXY rest id x y

/-! ### Edge store (C9) -/

/-- `createEdgeStore.add` (main (part_003) 108-114): a self-loop
(`from === to`) is ignored; an edge matching an existing one on
`from`, `to` and the curvy-defaulted stored kind
(`(e.kind ?? "curvy") === kind`) is ignored; otherwise the edge is
pushed. -/
def edgeAdd (edges : List StoredEdge) (f t : String) (k : EdgeKind) :
    List StoredEdge :=
  if f = t then edges
  else if edges.any fun e =>
      e.efrom == f && e.eto == t && e.kind.getD EdgeKind.curvy == k then
    edges
  else edges ++ [⟨f, t, some k⟩]

/-- `createEdgeStore.removeWithNode` (main (part_003) 116-120): drop
every edge touching the given node id. -/
def removeWithNode (edges : List StoredEdge) (id : String) :
    List StoredEdge :=
  edges.filter fun e => e.efrom != id && e.eto != id

/-- Edge lists reachable through the edge store's mutating operations,
starting from the empty list (a fresh store; `clear` also returns to
`[]`). -/
inductive ReachableEdges : List StoredEdge → Prop
  | empty : ReachableEdges []
  | add (f t : String) (k : EdgeKind) {es : List StoredEdge} :
      ReachableEdges es → ReachableEdges (edgeAdd es f t k)
  | removeWithNode (id : String) {es : List StoredEdge} :
      ReachableEdges es → ReachableEdges (removeWithNode es id)

/-- The `(from, to, kind ?? curvy)` triple of a stored edge, the key on
which `createEdgeStore.add` deduplicates. -/
def edgeTriple (e : StoredEdge) : String × String × EdgeKind :=
  (e.efrom, e.eto, e.kind.getD EdgeKind.curvy)

/-! ### CSV export (C6) -/

/-- JS `Math.round` on a real number: the nearest integer, halves
rounded toward `+∞`. -/
noncomputable def jsRoundR (x : ℝ) : ℤ := ⌊x + 1/2⌋

/-- JS `Array.prototype.join(sep)`. -/
def jsJoin (sep : String) : List String → String
  | [] => ""
  | [a] => a
  | a :: rest => a ++ sep ++ jsJoin sep rest

/-- One row of the Ctrl+E export (src/src/main.tsx 288-301, main
(part_003) 370-383): `` `${r.id},${Math.round(r.x)},${Math.round(r.y)}` ``. -/
noncomputable def csvLine (r : StoredNode) : String :=
  r.id ++ "," ++ toString (jsRoundR r.x) ++ "," ++ toString (jsRoundR r.y)

/-- The Ctrl+E export text:
`"node_id,x,y\n" + rows.map(...).join("\n")` over the store's rows. -/
noncomputable def exportCSV (rows : List StoredNode) : String :=
  "node_id,x,y\n" ++ jsJoin "\n" (rows.map csvLine)

/-- Split a character list at every occurrence of the separator
character (separator-delimited fields; the result is always
nonempty). -/
def splitChar (c : Char) : List Char → List (List Char)
  | [] => [[]]
  | a :: rest =>
    if a = c then [] :: splitChar c rest
    else
      match splitChar c rest with
      | [] => [[a]]
      | g :: gs => (a :: g) :: gs

/-- The lines of a text: newline-separated segments, a final line
terminator not opening a further empty line (the usual text-file
convention). -/
def linesOf (s : String) : List String :=
  let gs := splitChar '\n' s.data
  (if gs.getLast? = some [] then gs.dropLast else gs).map List.asString

/-! ### Node ids and the node store (C8, C10) -/

/-- `parseInt(id.replace(/\D+/g, "") || "0", 10)`: the numeric part of
a node id — the value of its digit characters in order (`0` when there
are none). -/
def numericPart (s : String) : ℕ := digitsVal (s.data.filter Char.isDigit)

/-- JS `String.prototype.padStart(3, "0")`. -/
def padStart3 (s : String) : String :=
  ⟨List.replicate (3 - s.length) '0' ++ s.data⟩

/-- `createNodeStore.nextId` (src/src/main.tsx 30-38, main (part_003)
37-45): one more than the maximum numeric part of the existing ids,
zero-padded to three digits, prefixed with `N`. -/
def nextId (nodes : List StoredNode) : String :=
  "N" ++ padStart3 (toString
    (nodes.foldl (fun m n => max m (numericPart n.id)) 0 + 1))

/-- `createNodeStore.add` (src/src/main.tsx 40-49): push a fresh row
with the next id. -/
def addNode (nodes : List StoredNode) (x y : ℝ) (status : NodeStatus) :
    List StoredNode :=
  nodes ++ [⟨nextId nodes, x, y, status⟩]

/-- JS `Math.hypot` on two finite arguments. -/
noncomputable def jsHypot (x y : ℝ) : ℝ := Real.sqrt (x ^ 2 + y ^ 2)

/-- The distance computed by `removeNearest`:
`Math.hypot(nodes[i].x - x, nodes[i].y - y)`. -/
noncomputable def distTo (n : StoredNode) (x y : ℝ) : ℝ :=
  jsHypot (n.x - x) (n.y - y)

open scoped Classical in
/-- The scan loop of `removeNearest` (src/src/main.tsx 51-68, main
(part_003) 66-83): starting from `k = -1, best = Infinity`, visit the
rows in order and record index and distance of each new strict minimum
(`d < best`).  The initial `(-1, Infinity)` accumulator is modelled as
`none`: every (finite, real) first distance satisfies `d < Infinity`. -/
noncomputable def bestScan (x y : ℝ) :
    List StoredNode → ℕ → Option (ℕ × ℝ) → Option (ℕ × ℝ)
  | [], _, acc => acc
  | n :: rest, i, acc =>
    let d := distTo n x y
    let acc' := match acc with
      | none => some (i, d)
      | some (k, b) => if d < b then some (i, d) else some (k, b)
    bestScan x y rest (i + 1) acc'

open scoped Classical in
/-- `createNodeStore.removeNearest`: when the scan found an index whose
best distance is within `maxDist`, splice that row out and return its
id; otherwise return `null` (modelled `none`) and leave the list
unchanged.  (The early `if (!nodes.length) return null` coincides with
the scan of an empty list returning the initial accumulator.) -/
noncomputable def removeNearest (nodes : List StoredNode) (x y : ℝ)
    (maxDist : ℝ) : List StoredNode × Option String :=
  match bestScan x y nodes 0 none with
  | none => (nodes, none)
  | some (k, best) =>
    if best ≤ maxDist then
      match nodes[k]? with
      | some n => (nodes.eraseIdx k, some n.id)
      | none => (nodes, none)
    else (nodes, none)

/-! ### Curved-link geometry (C7) -/

/-- A 2-D point (pixi `Point`), over exact reals. -/
@[ext]
structure Pt where
  x : ℝ
  y : ℝ

open scoped Classical in
/-- JS `|| 1` applied to a JS number: `0` is falsy, so it falls back to
`1` (finite nonzero reals are truthy). -/
noncomputable def jsOrOne (d : ℝ) : ℝ := if d = 0 then 1 else d

/-- The quadratic-bezier sampling helper `bezier` (linkCurvy.ts 23-41):
the control point is the midpoint of `a`, `b` plus the normalized
perpendicular `(nx, ny) / (hypot(nx, ny) || 1)` scaled by
`sag * hypot(b - a)`, and the samples are the quadratic Bezier values at
`t = i / steps` for `i = 0 .. steps`. -/
noncomputable def bezier (a b : Pt) (sag : ℝ) (steps : ℕ) : List Pt :=
  let mx := (a.x + b.x) / 2
  let my := (a.y + b.y) / 2
  let nx := b.y - a.y
  let ny := -(b.x - a.x)
  let d := jsOrOne (jsHypot nx ny)
  let cx := mx + nx / d * sag * jsHypot (b.x - a.x) (b.y - a.y)
  let cy := my + ny / d * sag * jsHypot (b.x - a.x) (b.y - a.y)
  (List.range (steps + 1)).map fun i : ℕ =>
    let t := (i : ℝ) / steps
    let u := 1 - t
    ⟨u * u * a.x + 2 * u * t * cx + t * t * b.x,
     u * u * a.y + 2 * u * t * cy + t * t * b.y⟩

/-- Modelled from the claim's words: the quadratic Bezier value
`(1-t)² a + 2 (1-t) t c + t² b` at parameter `t`. -/
noncomputable def quadBezierPt (a c b : Pt) (t : ℝ) : Pt :=
  ⟨(1 - t) ^ 2 * a.x + 2 * (1 - t) * t * c.x + t ^ 2 * b.x,
   (1 - t) ^ 2 * a.y + 2 * (1 - t) * t * c.y + t ^ 2 * b.y⟩

open scoped Classical in
/-- Modelled from the claim's words: the control point at the segment
midpoint, offset along the unit perpendicular to `a → b` by `sag` times
the distance from `a` to `b` (no offset when the endpoints coincide and
no perpendicular direction exists). -/
noncomputable def specControl (a b : Pt) (sag : ℝ) : Pt :=
  if Real.sqrt ((b.y - a.y) ^ 2 + (-(b.x - a.x)) ^ 2) = 0 then
    ⟨(a.x + b.x) / 2, (a.y + b.y) / 2⟩
  else
    ⟨(a.x + b.x) / 2 + (b.y - a.y) /
        Real.sqrt ((b.y - a.y) ^ 2 + (-(b.x - a.x)) ^ 2) *
        (sag * Real.sqrt ((b.x - a.x) ^ 2 + (b.y - a.y) ^ 2)),
      (a.y + b.y) / 2 + (-(b.x - a.x)) /
        Real.sqrt ((b.y - a.y) ^ 2 + (-(b.x - a.x)) ^ 2) *
        (sag * Real.sqrt ((b.x - a.x) ^ 2 + (b.y - a.y) ^ 2))⟩

/-- Node lists reachable through the node store's mutating operations,
starting from the empty list (a fresh store; `clear` also returns to
`[]`). -/
inductive ReachableNodes : List StoredNode → Prop
  | empty : ReachableNodes []
  | add (x y : ℝ) (status : NodeStatus) {l : List StoredNode} :
      ReachableNodes l → ReachableNodes (addNode l x y status)
  | removeNearest (x y maxDist : ℝ) {l : List StoredNode} :
      ReachableNodes l → ReachableNodes (removeNearest l x y maxDist).1

end TOL

/-! ## Theorems -/

namespace TOL

/-- C1: every difficulty stored by `UINode.applyMeta` from a numeric
argument, and every difficulty produced by a create-node dialog
submission, is an integer (the functions land in `ℤ`) lying in the
closed interval `[0, 33]`. -/
theorem applyMeta_and_dialog_difficulty_in_range (d : ℚ) (s : String) :
    0 ≤ applyMetaDifficulty d ∧ applyMetaDifficulty d ≤ 33 ∧
    0 ≤ submittedDifficulty s ∧ submittedDifficulty s ≤ 33 := by
  have h1 : ∀ z : ℤ, 0 ≤ max 0 (min 33 z) := fun z => by omega
  have h2 : ∀ z : ℤ, max 0 (min 33 z) ≤ 33 := fun z => by omega
  exact ⟨h1 _, h2 _, h1 _, h2 _⟩

/-- C2: for every raw difficulty input string, including malformed
(non-numeric) ones, the dialog computes a clamped integer difficulty in
`[0, 33]`; a string the number-input grammar rejects is sanitized away
and yields `0`. -/
theorem dialog_difficulty_clamped (s : String) :
    0 ≤ submittedDifficulty s ∧ submittedDifficulty s ≤ 33 ∧
    ((parseHTMLFloat s).isNone → submittedDifficulty s = 0) := by
  have h1 : ∀ z : ℤ, 0 ≤ max 0 (min 33 z) := fun z => by omega
  have h2 : ∀ z : ℤ, max 0 (min 33 z) ≤ 33 := fun z => by omega
  refine ⟨h1 _, h2 _, ?_⟩
  intro h
  rw [Option.isNone_iff_eq_none] at h
  unfold submittedDifficulty sanitizeNumberValue
  rw [h]
  simp only [Option.isSome_none, Bool.false_eq_true, if_false]
  rw [if_pos trivial]
  have hparts : parseHTMLFloatParts "0" = some (false, 0, 0, 0, 0) := by
    decide
  have hp : parseHTMLFloat "0" = some 0 := by
    rw [parseHTMLFloat, hparts, Option.map_some']
    norm_num [floatPartsVal]
  rw [hp]
  have hr : jsRound 0 = 0 := by norm_num [jsRound]
  simp only [Option.getD_some, hr]
  omega

/-- C2 witness: the malformed input string `"abc"` is rejected by the
grammar and the computed difficulty is `0`, which lies in `[0, 33]`. -/
theorem dialog_difficulty_clamped_witness :
    (parseHTMLFloat "abc").isNone ∧ submittedDifficulty "abc" = 0 :=
  ⟨by decide, (dialog_difficulty_clamped "abc").2.2 (by decide)⟩

/-- C3: loading a store never fails: an absent value, the empty string,
and a stored text on which parsing throws all yield the empty list. -/
theorem loadStore_total_fallback {α : Type}
    (parse : String → Option (List α)) (raw : Option String) :
    (raw = none → loadStore parse raw = []) ∧
    (∀ s, raw = some s → s = "" → loadStore parse raw = []) ∧
    (∀ s, raw = some s → parse s = none → loadStore parse raw = []) := by
  refine ⟨?_, ?_, ?_⟩
  · rintro rfl; rfl
  · rintro s rfl rfl; rfl
  · rintro s rfl hp
    unfold loadStore
    by_cases hs : s = "" <;> simp [hs, hp]

/-- C3 witness: with a parser that throws on everything and the stored
text `"garbage"`, the loaded collection is the empty list. -/
theorem loadStore_total_fallback_witness :
    (fun (_ : String) => (none : Option (List ℕ))) "garbage" = none ∧
      loadStore (α := ℕ) (fun _ => none) (some "garbage") = [] :=
  ⟨rfl, (loadStore_total_fallback (fun _ => none)
    (some "garbage")).2.2 "garbage" rfl rfl⟩

/-- C4: rebuilding the edge layer ignores edges with a missing endpoint
(the output equals the rebuild of the well-formed sublist), renders every
edge whose two endpoints both exist, and every rendered edge comes from a
stored edge whose two endpoints exist. -/
theorem rebuildEdges_skips_stale {ν : Type} (nodeMap : String → Option ν)
    (edges : List StoredEdge) :
    rebuildEdges nodeMap edges =
      rebuildEdges nodeMap (edges.filter fun e =>
        (nodeMap e.efrom).isSome && (nodeMap e.eto).isSome) ∧
    (∀ e ∈ edges, ∀ f t, nodeMap e.efrom = some f → nodeMap e.eto = some t →
      (⟨f, t, e.kind.getD EdgeKind.curvy⟩ : RenderedEdge ν) ∈
        rebuildEdges nodeMap edges) ∧
    (∀ r ∈ rebuildEdges nodeMap edges, ∃ e ∈ edges,
      nodeMap e.efrom = some r.fromNode ∧ nodeMap e.eto = some r.toNode ∧
      r.kind = e.kind.getD EdgeKind.curvy) := by
  refine ⟨?_, ?_, ?_⟩
  · induction edges with
    | nil => rfl
    | cons e rest ih =>
      rw [rebuildEdges, List.filterMap_cons, List.filter_cons]
      cases hf : nodeMap e.efrom with
      | none =>
        simpa [rebuildEdges, hf] using ih
      | some f =>
        cases ht : nodeMap e.eto with
        | none => simpa [rebuildEdges, hf, ht] using ih
        | some t =>
          simp only [hf, ht, Option.isSome_some, Bool.and_self, if_pos]
          rw [rebuildEdges] at ih ⊢
          simp only [List.filterMap_cons, hf, ht]
          rw [ih]
          rfl
  · intro e he f t hf ht
    rw [rebuildEdges, List.mem_filterMap]
    exact ⟨e, he, by simp [hf, ht]⟩
  · intro r hr
    rw [rebuildEdges, List.mem_filterMap] at hr
    obtain ⟨e, he, hfn⟩ := hr
    refine ⟨e, he, ?_⟩
    cases hf : nodeMap e.efrom with
    | none => rw [hf] at hfn; simp at hfn
    | some f =>
      cases ht : nodeMap e.eto with
      | none => rw [hf, ht] at hfn; simp at hfn
      | some t =>
        rw [hf, ht] at hfn
        simp only [Option.some.injEq] at hfn
        subst hfn
        exact ⟨rfl, rfl, rfl⟩

/-- C4 witness: with a node map holding `"A"` and `"B"`, the stored edge
`("A", "B")` (with the defaulted curvy kind) is rendered. -/
theorem rebuildEdges_skips_stale_witness :
    (⟨0, 1, EdgeKind.curvy⟩ : RenderedEdge ℕ) ∈
      rebuildEdges
        (fun s => if s = "A" then some 0 else if s = "B" then some 1 else none)
        [⟨"A", "B", none⟩] :=
  (rebuildEdges_skips_stale _ _).2.1 ⟨"A", "B", none⟩ (by simp) 0 1
    (by simp) (by simp)

/-- `UINode.persistXY` and `createNodeStore.update` perform the same
list transformation: replace the coordinates of the first row whose id
matches, if any. -/
theorem persistXY_eq_updateNode (l : List StoredNode) (id : String)
    (x y : ℝ) : persistXY l id x y = updateNode l id x y := by
  induction l with
  | nil => rfl
  | cons n rest ih =>
    by_cases h : n.id = id
    · rw [persistXY, if_pos h, updateNode, List.findIdx?_cons]
      simp [h]
    · have hb : (n.id == id) = false := by simp [h]
      rw [persistXY, if_neg h, ih]
      show n :: updateNode rest id x y = updateNode (n :: rest) id x y
      cases hr : rest.findIdx? (fun m => m.id == id) with
      | none =>
        simp only [updateNode, hr, List.findIdx?_cons, hb,
          Bool.false_eq_true, if_false, List.findIdx?_start_succ,
          Option.map_none']
      | some i =>
        cases hm : rest[i]? with
        | none =>
          have hp := List.findIdx?_of_eq_some hr
          rw [hm] at hp
          exact absurd hp (by simp)
        | some m =>
          simp only [updateNode, hr, hm, List.findIdx?_cons, hb,
            Bool.false_eq_true, if_false, List.findIdx?_start_succ,
            Option.map_some', Nat.zero_add, List.getElem?_cons_succ,
            List.set_cons_succ]

/-- C5: when a drag ends, `persistXY` and the `onDrop` store `update`
both rewrite exactly the dragged node's row: the row at the found index
(whose id is the dragged id) gets the new coordinates, and every other
row of the persisted list is unchanged. -/
theorem drag_end_persists_coordinates (nodes : List StoredNode)
    (id : String) (x y : ℝ) (i : ℕ) (n : StoredNode)
    (hfind : nodes.findIdx? (fun m => m.id == id) = some i)
    (hget : nodes[i]? = some n) :
    persistXY nodes id x y = updateNode nodes id x y ∧
    n.id = id ∧
    (updateNode nodes id x y)[i]? = some { n with x := x, y := y } ∧
    (∀ j, j ≠ i → (updateNode nodes id x y)[j]? = nodes[j]?) := by
  have hupd : updateNode nodes id x y =
      nodes.set i { n with x := x, y := y } := by
    simp only [updateNode, hfind, hget]
  have hid : n.id = id := by
    have h2 := List.findIdx?_of_eq_some hfind
    rw [hget] at h2
    simpa using h2
  have hlen : i < nodes.length := by
    by_contra hcon
    push_neg at hcon
    rw [List.getElem?_eq_none hcon] at hget
    cases hget
  refine ⟨persistXY_eq_updateNode nodes id x y, hid, ?_, ?_⟩
  · rw [hupd]
    exact List.getElem?_set_eq_of_lt _ hlen
  · intro j hj
    rw [hupd]
    exact List.getElem?_set_ne (fun h => hj h.symm)

/-- C5 witness: dragging the single stored node `"N001"` to `(5, 6)`
rewrites its row and leaves every other position unchanged. -/
theorem drag_end_persists_coordinates_witness :
    ([⟨"N001", 0, 0, NodeStatus.Available⟩] :
        List StoredNode).findIdx? (fun m => m.id == "N001") = some 0 ∧
    ([⟨"N001", 0, 0, NodeStatus.Available⟩] :
        List StoredNode)[0]? = some ⟨"N001", 0, 0, NodeStatus.Available⟩ ∧
    (updateNode [⟨"N001", 0, 0, NodeStatus.Available⟩] "N001" 5 6)[0]? =
      some ⟨"N001", 5, 6, NodeStatus.Available⟩ :=
  ⟨rfl, rfl,
    (drag_end_persists_coordinates [⟨"N001", 0, 0, NodeStatus.Available⟩]
      "N001" 5 6 0 ⟨"N001", 0, 0, NodeStatus.Available⟩ rfl rfl).2.2.1⟩

/-- C9: the edge store's `add` is a no-op on a self-loop and on a
duplicate of an existing `(from, to, kind ?? curvy)` triple; every edge
list reachable through `add`, `removeWithNode` and `clear` has no
self-loop and pairwise distinct triples. -/
theorem edge_store_invariants (es : List StoredEdge) (f t : String)
    (k : EdgeKind) (es' : List StoredEdge) (h : ReachableEdges es') :
    (f = t → edgeAdd es f t k = es) ∧
    ((es.any fun e =>
        e.efrom == f && e.eto == t && e.kind.getD EdgeKind.curvy == k) →
      edgeAdd es f t k = es) ∧
    (∀ e ∈ es', e.efrom ≠ e.eto) ∧ (es'.map edgeTriple).Nodup := by
  refine ⟨?_, ?_, ?_⟩
  · intro hft
    rw [edgeAdd, if_pos hft]
  · intro hdup
    rw [edgeAdd]
    by_cases hft : f = t
    · rw [if_pos hft]
    · rw [if_neg hft, if_pos hdup]
  · induction h with
    | empty => simp
    | add f' t' k' hr ih =>
      rw [edgeAdd]
      by_cases hft : f' = t'
      · rw [if_pos hft]; exact ih
      · rw [if_neg hft]
        rename_i es₀
        by_cases hdup : es₀.any fun e =>
            e.efrom == f' && e.eto == t' && e.kind.getD EdgeKind.curvy == k'
        · rw [if_pos hdup]; exact ih
        · rw [if_neg hdup]
          have hnot : ∀ e ∈ es₀, edgeTriple e ≠ (f', t', k') := by
            intro e he hcontra
            apply hdup
            rw [List.any_eq_true]
            refine ⟨e, he, ?_⟩
            rw [edgeTriple, Prod.mk.injEq, Prod.mk.injEq] at hcontra
            simp [hcontra.1, hcontra.2.1, hcontra.2.2]
          constructor
          · intro e he
            rcases List.mem_append.mp he with h1 | h1
            · exact ih.1 e h1
            · rcases List.mem_singleton.mp h1 with rfl
              exact hft
          · rw [List.map_append, List.map_singleton]
            rw [List.nodup_append]
            refine ⟨ih.2, List.nodup_singleton _, ?_⟩
            intro a ha hb
            rw [List.mem_singleton] at hb
            subst hb
            rw [List.mem_map] at ha
            obtain ⟨e, he, hetr⟩ := ha
            exact hnot e he hetr
    | removeWithNode id hr ih =>
      constructor
      · intro e he
        exact ih.1 e (List.mem_of_mem_filter he)
      · exact ih.2.sublist (List.Sublist.map _ (List.filter_sublist _))

/-! Digit-string arithmetic: `Nat.repr` produces exactly the decimal
digits of its argument, and `digitsVal` recovers the value. -/

theorem digitsVal_from (l : List Char) (i : ℕ) :
    l.foldl (fun a c => 10 * a + (c.toNat - 48)) i =
      i * 10 ^ l.length + digitsVal l := by
  induction l generalizing i with
  | nil => simp [digitsVal]
  | cons c l ih =>
    have h2 : digitsVal (c :: l) =
        (c.toNat - 48) * 10 ^ l.length + digitsVal l := by
      rw [digitsVal, List.foldl_cons, ih]
      norm_num
    rw [List.foldl_cons, ih, h2, List.length_cons, pow_succ]
    ring

theorem digitsVal_cons (c : Char) (l : List Char) :
    digitsVal (c :: l) = (c.toNat - 48) * 10 ^ l.length + digitsVal l := by
  rw [digitsVal, List.foldl_cons, digitsVal_from]
  norm_num

theorem digitsVal_append (a b : List Char) :
    digitsVal (a ++ b) = digitsVal a * 10 ^ b.length + digitsVal b := by
  rw [digitsVal, List.foldl_append, ← digitsVal, digitsVal_from]

theorem digitsVal_replicate_zero (k : ℕ) :
    digitsVal (List.replicate k '0') = 0 := by
  induction k with
  | zero => rfl
  | succ k ih =>
    have h0 : '0'.toNat - 48 = 0 := rfl
    rw [List.replicate_succ, digitsVal_cons, ih, h0, zero_mul]

theorem digitChar_val : ∀ m, m < 10 → (Nat.digitChar m).toNat - 48 = m := by
  decide

theorem digitChar_isDigit : ∀ m, m < 10 → (Nat.digitChar m).isDigit := by
  decide

theorem toDigitsCore_digits (fuel : ℕ) :
    ∀ (n : ℕ) (ds : List Char), (∀ c ∈ ds, c.isDigit) →
      ∀ c ∈ Nat.toDigitsCore 10 fuel n ds, c.isDigit := by
  induction fuel with
  | zero => intro n ds hds; simpa [Nat.toDigitsCore] using hds
  | succ fuel ih =>
    intro n ds hds
    rw [Nat.toDigitsCore]
    have hd : (Nat.digitChar (n % 10)).isDigit :=
      digitChar_isDigit _ (Nat.mod_lt _ (by norm_num))
    have hcons : ∀ c ∈ Nat.digitChar (n % 10) :: ds, c.isDigit := by
      intro c hc
      rcases List.mem_cons.mp hc with rfl | hc
      · exact hd
      · exact hds c hc
    by_cases h0 : n / 10 = 0
    · rw [if_pos h0]
      exact hcons
    · rw [if_neg h0]
      exact ih _ _ hcons

theorem toDigitsCore_val (fuel : ℕ) :
    ∀ (n : ℕ) (ds : List Char), n < fuel →
      digitsVal (Nat.toDigitsCore 10 fuel n ds) =
        n * 10 ^ ds.length + digitsVal ds := by
  induction fuel with
  | zero => intro n ds h; exact absurd h (Nat.not_lt_zero n)
  | succ fuel ih =>
    intro n ds h
    rw [Nat.toDigitsCore]
    have hv : (Nat.digitChar (n % 10)).toNat - 48 = n % 10 :=
      digitChar_val _ (Nat.mod_lt _ (by norm_num))
    by_cases h0 : n / 10 = 0
    · rw [if_pos h0, digitsVal_cons, hv]
      have hn : n % 10 = n := by omega
      rw [hn]
    · rw [if_neg h0]
      have hlt : n / 10 < fuel := by omega
      rw [ih _ _ hlt, digitsVal_cons, hv, List.length_cons, pow_succ]
      set P := (10 : ℕ) ^ ds.length with hP
      set q := n / 10 with hq
      set r := n % 10 with hr
      have hn : 10 * q + r = n := Nat.div_add_mod n 10
      rw [← hn]
      ring

theorem natRepr_digits (n : ℕ) : ∀ c ∈ (Nat.repr n).data, c.isDigit := by
  show ∀ c ∈ Nat.toDigitsCore 10 (n + 1) n [], c.isDigit
  exact toDigitsCore_digits (n + 1) n [] (by simp)

theorem natRepr_val (n : ℕ) : digitsVal (Nat.repr n).data = n := by
  show digitsVal (Nat.toDigitsCore 10 (n + 1) n []) = n
  rw [toDigitsCore_val (n + 1) n [] (Nat.lt_succ_self n)]
  simp [digitsVal]

theorem foldl_max_init_le (l : List StoredNode) (a : ℕ) :
    a ≤ l.foldl (fun m n => max m (numericPart n.id)) a := by
  induction l generalizing a with
  | nil => exact le_refl a
  | cons n l ih =>
    exact le_trans (le_max_left a (numericPart n.id)) (ih _)

theorem mem_le_foldl_max (l : List StoredNode) (a : ℕ) (n : StoredNode)
    (h : n ∈ l) :
    numericPart n.id ≤ l.foldl (fun m x => max m (numericPart x.id)) a := by
  induction l generalizing a with
  | nil => cases h
  | cons m l ih =>
    rw [List.foldl_cons]
    rcases List.mem_cons.mp h with rfl | h
    · exact le_trans (le_max_right a (numericPart n.id))
        (foldl_max_init_le l _)
    · exact ih _ h

/-- The numeric part of the freshly generated id is one more than the
maximum numeric part in the store: the `N` prefix contributes no digits,
the padding zeros do not change the value, and the decimal digits of the
number read back as the number. -/
theorem numericPart_nextId (nodes : List StoredNode) :
    numericPart (nextId nodes) =
      nodes.foldl (fun m n => max m (numericPart n.id)) 0 + 1 := by
  set M := nodes.foldl (fun m n => max m (numericPart n.id)) 0 + 1 with hM
  have hts : (toString M) = Nat.repr M := rfl
  rw [nextId, ← hM, numericPart, padStart3, hts]
  have hdata : ("N" ++
      (⟨List.replicate (3 - (Nat.repr M).length) '0' ++
        (Nat.repr M).data⟩ : String)).data =
      'N' :: (List.replicate (3 - (Nat.repr M).length) '0' ++
        (Nat.repr M).data) := rfl
  rw [hdata, List.filter_cons]
  rw [if_neg (by simp)]
  have hall : ∀ c ∈ List.replicate (3 - (Nat.repr M).length) '0' ++
      (Nat.repr M).data, c.isDigit := by
    intro c hc
    rcases List.mem_append.mp hc with hc | hc
    · rw [List.eq_of_mem_replicate hc]
      decide
    · exact natRepr_digits M c hc
  rw [List.filter_eq_self.mpr hall, digitsVal_append,
    digitsVal_replicate_zero, natRepr_val]
  ring

theorem removeNearest_fst_sublist (l : List StoredNode) (x y d : ℝ) :
    (removeNearest l x y d).1.Sublist l := by
  cases hb : bestScan x y l 0 none with
  | none =>
    simp only [removeNearest, hb]
    exact List.Sublist.refl l
  | some kb =>
    obtain ⟨k, b⟩ := kb
    simp only [removeNearest, hb]
    by_cases hbd : b ≤ d
    · rw [if_pos hbd]
      cases hk : l[k]? with
      | some n =>
        simp only [hk]
        exact List.eraseIdx_sublist l k
      | none =>
        simp only [hk]
        exact List.Sublist.refl l
    · rw [if_neg hbd]

/-! Splitting a character stream at separators: basic inversion facts
used for the CSV export. -/

theorem splitChar_ne_nil (c : Char) (l : List Char) :
    splitChar c l ≠ [] := by
  cases l with
  | nil => simp [splitChar]
  | cons a r =>
    rw [splitChar]
    by_cases h : a = c
    · simp [h]
    · rw [if_neg h]
      cases hs : splitChar c r <;> simp

theorem splitChar_cons_sep (c : Char) (r : List Char) :
    splitChar c (c :: r) = [] :: splitChar c r := by
  simp [splitChar]

theorem splitChar_append_no_sep (c : Char) (l r : List Char)
    (hl : c ∉ l) (g : List Char) (gs : List (List Char))
    (hs : splitChar c r = g :: gs) :
    splitChar c (l ++ r) = (l ++ g) :: gs := by
  induction l with
  | nil => simpa using hs
  | cons a l ih =>
    have ha : a ≠ c := fun hac => hl (hac ▸ List.mem_cons_self a l)
    have hmem : c ∉ l := fun hc => hl (List.mem_cons_of_mem a hc)
    rw [List.cons_append, splitChar, if_neg ha, ih hmem]
    rfl

theorem splitChar_no_sep (c : Char) (l : List Char) (hl : c ∉ l) :
    splitChar c l = [l] := by
  have h := splitChar_append_no_sep c l [] hl [] [] rfl
  simpa using h

theorem splitChar_jsJoin (ss : List String) (hss : ss ≠ [])
    (h : ∀ s ∈ ss, '\n' ∉ s.data) :
    splitChar '\n' (jsJoin "\n" ss).data = ss.map String.data := by
  induction ss with
  | nil => exact absurd rfl hss
  | cons a ss ih =>
    cases ss with
    | nil =>
      show splitChar '\n' a.data = [a.data]
      exact splitChar_no_sep '\n' a.data (h a (List.mem_cons_self a []))
    | cons b ss' =>
      have hj : jsJoin "\n" (a :: b :: ss') =
          a ++ "\n" ++ jsJoin "\n" (b :: ss') := rfl
      rw [hj, String.data_append, String.data_append]
      have hsep : ("\n" : String).data ++ (jsJoin "\n" (b :: ss')).data =
          '\n' :: (jsJoin "\n" (b :: ss')).data := rfl
      rw [List.append_assoc, hsep]
      have ihx := ih (by simp) (fun s hs => h s (List.mem_cons_of_mem a hs))
      have hcons : splitChar '\n' ('\n' :: (jsJoin "\n" (b :: ss')).data) =
          [] :: (b :: ss').map String.data := by
        rw [splitChar_cons_sep, ihx]
      rw [splitChar_append_no_sep '\n' a.data _
        (h a (List.mem_cons_self a _)) _ _ hcons]
      simp

theorem getLast?_ne_some_nil (L : List (List Char))
    (h : ∀ g ∈ L, g ≠ []) : L.getLast? ≠ some [] := by
  induction L with
  | nil => simp
  | cons a L ih =>
    cases L with
    | nil => simpa using h a (List.mem_cons_self a [])
    | cons b L' =>
      rw [List.getLast?_cons_cons]
      exact ih fun g hg => h g (List.mem_cons_of_mem a hg)

theorem intToString_chars (i : ℤ) :
    ∀ c ∈ (toString i).data, c.isDigit ∨ c = '-' := by
  cases i with
  | ofNat m =>
    intro c hc
    exact Or.inl (natRepr_digits m c hc)
  | negSucc m =>
    intro c hc
    have hdata : (toString (Int.negSucc m)).data =
        '-' :: (Nat.repr (m + 1)).data := rfl
    rw [hdata] at hc
    rcases List.mem_cons.mp hc with rfl | hc
    · exact Or.inr rfl
    · exact Or.inl (natRepr_digits (m + 1) c hc)

theorem csvLine_data (r : StoredNode) :
    (csvLine r).data = r.id.data ++ ',' ::
      ((toString (jsRoundR r.x)).data ++ ',' ::
        (toString (jsRoundR r.y)).data) := by
  rw [csvLine, String.data_append, String.data_append,
    String.data_append, String.data_append]
  simp

theorem csvLine_no_newline (r : StoredNode) (hid : '\n' ∉ r.id.data) :
    '\n' ∉ (csvLine r).data := by
  rw [csvLine_data]
  intro hc
  rcases List.mem_append.mp hc with hc | hc
  · exact hid hc
  · rcases List.mem_cons.mp hc with hc | hc
    · cases hc
    · rcases List.mem_append.mp hc with hc | hc
      · rcases intToString_chars _ '\n' hc with hd | hd <;> cases hd
      · rcases List.mem_cons.mp hc with hc | hc
        · cases hc
        · rcases intToString_chars _ '\n' hc with hd | hd <;> cases hd

theorem csvLine_data_ne_nil (r : StoredNode) : (csvLine r).data ≠ [] := by
  rw [csvLine_data]
  intro hc
  cases List.append_eq_nil.mp hc with
  | intro h1 h2 => cases h2

/-- C6: the Ctrl+E export reads, as a text file, as the header line
`node_id,x,y` followed by exactly one line per stored node in store
order, each line being the node's id and its two coordinates rounded to
the nearest integer, comma-separated (assuming no node id itself
contains a newline). -/
theorem export_header_and_one_line_per_node (rows : List StoredNode)
    (hid : ∀ r ∈ rows, '\n' ∉ r.id.data) :
    linesOf (exportCSV rows) = "node_id,x,y" :: rows.map csvLine := by
  cases rows with
  | nil =>
    show linesOf ("node_id,x,y\n" ++ jsJoin "\n" []) = ["node_id,x,y"]
    decide
  | cons r rest =>
    have hnl : ∀ s ∈ (r :: rest).map csvLine, '\n' ∉ s.data := by
      intro s hs
      rw [List.mem_map] at hs
      obtain ⟨t, ht, rfl⟩ := hs
      exact csvLine_no_newline t (hid t ht)
    have hex : (exportCSV (r :: rest)).data =
        "node_id,x,y".data ++ '\n' ::
          (jsJoin "\n" ((r :: rest).map csvLine)).data := by
      rw [exportCSV, String.data_append]
      have : ("node_id,x,y\n" : String).data =
          "node_id,x,y".data ++ ['\n'] := by decide
      rw [this, List.append_assoc]
      rfl
    have hjoin := splitChar_jsJoin ((r :: rest).map csvLine) (by simp) hnl
    have hcons : splitChar '\n'
        ('\n' :: (jsJoin "\n" ((r :: rest).map csvLine)).data) =
        [] :: ((r :: rest).map csvLine).map String.data := by
      rw [splitChar_cons_sep, hjoin]
    have hheadfree : '\n' ∉ ("node_id,x,y" : String).data := by decide
    have hsplit : splitChar '\n' (exportCSV (r :: rest)).data =
        "node_id,x,y".data :: ((r :: rest).map csvLine).map String.data := by
      rw [hex, splitChar_append_no_sep '\n' _ _ hheadfree _ _ hcons]
      simp
    rw [linesOf]
    rw [hsplit]
    have hlast : ("node_id,x,y".data ::
        ((r :: rest).map csvLine).map String.data).getLast? ≠ some [] := by
      apply getLast?_ne_some_nil
      intro g hg
      rcases List.mem_cons.mp hg with rfl | hg
      · decide
      · rw [List.mem_map] at hg
        obtain ⟨s, hs, rfl⟩ := hg
        rw [List.mem_map] at hs
        obtain ⟨t, _, rfl⟩ := hs
        exact csvLine_data_ne_nil t
    rw [if_neg hlast]
    rw [List.map_cons, List.map_map]
    have hcomp : List.asString ∘ String.data = id := by
      funext s
      rfl
    rw [hcomp, List.map_id]
    rfl

/-- C6 witness: on the empty store the export is exactly the header
line. -/
theorem export_header_and_one_line_per_node_witness :
    (∀ r ∈ ([] : List StoredNode), '\n' ∉ r.id.data) ∧
      linesOf (exportCSV []) = ["node_id,x,y"] :=
  ⟨fun r hr => absurd hr (List.not_mem_nil r),
    export_header_and_one_line_per_node []
      (fun r hr => absurd hr (List.not_mem_nil r))⟩

/-- The control point computed inside `bezier` (via the normalized
perpendicular and the `|| 1` guard) equals the spec-side control point:
the two `Math.hypot` calls take the same value, so the normalization by
the guarded perpendicular length exactly cancels against the `a`-to-`b`
distance factor; for coincident endpoints both sides are the
midpoint. -/
theorem codeControl_eq_specControl (a b : Pt) (sag : ℝ) :
    (⟨(a.x + b.x) / 2 + (b.y - a.y) /
        jsOrOne (jsHypot (b.y - a.y) (-(b.x - a.x))) * sag *
        jsHypot (b.x - a.x) (b.y - a.y),
      (a.y + b.y) / 2 + (-(b.x - a.x)) /
        jsOrOne (jsHypot (b.y - a.y) (-(b.x - a.x))) * sag *
        jsHypot (b.x - a.x) (b.y - a.y)⟩ : Pt) = specControl a b sag := by
  rw [specControl]
  by_cases hz : Real.sqrt ((b.y - a.y) ^ 2 + (-(b.x - a.x)) ^ 2) = 0
  · rw [if_pos hz]
    have hnn : (0 : ℝ) ≤ (b.y - a.y) ^ 2 + (-(b.x - a.x)) ^ 2 := by
      positivity
    have hsum : (b.y - a.y) ^ 2 + (-(b.x - a.x)) ^ 2 = 0 :=
      (Real.sqrt_eq_zero hnn).mp hz
    have hpx : b.y - a.y = 0 := by nlinarith [sq_nonneg (b.y - a.y), sq_nonneg (b.x - a.x)]
    have hpy : b.x - a.x = 0 := by nlinarith [sq_nonneg (b.y - a.y), sq_nonneg (b.x - a.x)]
    ext
    · show (a.x + b.x) / 2 + (b.y - a.y) / _ * sag * _ = (a.x + b.x) / 2
      rw [hpx]
      ring
    · show (a.y + b.y) / 2 + (-(b.x - a.x)) / _ * sag * _ = (a.y + b.y) / 2
      rw [hpy]
      ring
  · rw [if_neg hz]
    have hOne : jsOrOne (jsHypot (b.y - a.y) (-(b.x - a.x))) =
        Real.sqrt ((b.y - a.y) ^ 2 + (-(b.x - a.x)) ^ 2) := by
      rw [jsHypot, jsOrOne, if_neg hz]
    ext
    · show (a.x + b.x) / 2 + (b.y - a.y) / _ * sag *
          jsHypot (b.x - a.x) (b.y - a.y) = _
      rw [hOne, jsHypot]
      ring
    · show (a.y + b.y) / 2 + (-(b.x - a.x)) / _ * sag *
          jsHypot (b.x - a.x) (b.y - a.y) = _
      rw [hOne, jsHypot]
      ring

/-- `bezier` is the pointwise sampling of the quadratic Bezier with the
spec-side control point at `t = i / steps`, `i = 0 .. steps`. -/
theorem bezier_eq_map (a b : Pt) (sag : ℝ) (steps : ℕ) :
    bezier a b sag steps = (List.range (steps + 1)).map fun i : ℕ =>
      quadBezierPt a (specControl a b sag) b ((i : ℝ) / steps) := by
  have hc := codeControl_eq_specControl a b sag
  simp only [bezier]
  apply List.map_congr_left
  intro i _
  rw [quadBezierPt, ← hc]
  ext <;> dsimp only <;> ring

/-- C7: for `steps ≥ 1` the sampler returns exactly `steps + 1` points;
the `i`-th point is the quadratic Bezier value at `t = i / steps` with
the control point at the midpoint offset perpendicularly by `sag` times
the endpoint distance; the first point is `a` and the last is `b`. -/
theorem bezier_quadratic_sampling (a b : Pt) (sag : ℝ) (steps : ℕ)
    (hsteps : 1 ≤ steps) :
    (bezier a b sag steps).length = steps + 1 ∧
    (∀ i, i ≤ steps → (bezier a b sag steps)[i]? =
      some (quadBezierPt a (specControl a b sag) b ((i : ℝ) / steps))) ∧
    (bezier a b sag steps)[0]? = some a ∧
    (bezier a b sag steps)[steps]? = some b := by
  have hmap := bezier_eq_map a b sag steps
  have hget : ∀ i, i ≤ steps → (bezier a b sag steps)[i]? =
      some (quadBezierPt a (specControl a b sag) b ((i : ℝ) / steps)) := by
    intro i hi
    rw [hmap, List.getElem?_map, List.getElem?_range (by omega)]
    rfl
  refine ⟨?_, hget, ?_, ?_⟩
  · rw [hmap, List.length_map, List.length_range]
  · rw [hget 0 (by omega)]
    congr 1
    rw [quadBezierPt]
    ext <;> dsimp only <;> norm_num
  · rw [hget steps (le_refl _)]
    congr 1
    have ht : ((steps : ℝ)) / (steps : ℝ) = 1 :=
      div_self (Nat.cast_ne_zero.mpr (by omega))
    rw [quadBezierPt, ht]
    ext <;> dsimp only <;> norm_num

/-- C7 witness: sampling with one step between `(0,0)` and `(1,0)` at
`sag = 0` gives two points, the endpoints themselves. -/
theorem bezier_quadratic_sampling_witness :
    1 ≤ 1 ∧
    (bezier ⟨0, 0⟩ ⟨1, 0⟩ 0 1).length = 1 + 1 ∧
    (bezier ⟨0, 0⟩ ⟨1, 0⟩ 0 1)[0]? = some ⟨0, 0⟩ ∧
    (bezier ⟨0, 0⟩ ⟨1, 0⟩ 0 1)[1]? = some ⟨1, 0⟩ :=
  have h := bezier_quadratic_sampling ⟨0, 0⟩ ⟨1, 0⟩ 0 1 (le_refl 1)
  ⟨le_refl 1, h.1, h.2.2.1, h.2.2.2⟩

/-- C8: the freshly generated id's numeric part strictly exceeds the
numeric part of every stored id, so `add` never reuses an existing id;
consequently every node list reachable through `add`, `removeNearest`
and `clear` has pairwise distinct ids. -/
theorem nextId_fresh_and_ids_nodup (nodes l : List StoredNode)
    (h : ReachableNodes l) :
    (∀ n ∈ nodes, numericPart n.id < numericPart (nextId nodes)) ∧
    (nextId nodes ∉ nodes.map StoredNode.id) ∧
    (l.map StoredNode.id).Nodup := by
  have hstrict : ∀ (ns : List StoredNode), ∀ n ∈ ns,
      numericPart n.id < numericPart (nextId ns) := by
    intro ns n hn
    rw [numericPart_nextId]
    exact Nat.lt_succ_of_le (mem_le_foldl_max ns 0 n hn)
  have hfresh : ∀ ns : List StoredNode,
      nextId ns ∉ ns.map StoredNode.id := by
    intro ns hmem
    rw [List.mem_map] at hmem
    obtain ⟨n, hn, hid⟩ := hmem
    have hlt := hstrict ns n hn
    rw [hid] at hlt
    exact lt_irrefl _ hlt
  refine ⟨hstrict nodes, hfresh nodes, ?_⟩
  induction h with
  | empty => simp
  | add x y status hr ih =>
    rw [addNode, List.map_append, List.map_singleton]
    rw [List.nodup_append]
    refine ⟨ih, List.nodup_singleton _, ?_⟩
    intro a ha hb
    rw [List.mem_singleton] at hb
    subst hb
    exact hfresh _ ha
  | removeNearest x y maxDist hr ih =>
    exact ih.sublist ((removeNearest_fst_sublist _ x y maxDist).map _)

/-- C8 witness: the singleton list obtained by `add` on a fresh store is
reachable and its ids are pairwise distinct; the fresh id is not among
the (empty) existing ids. -/
theorem nextId_fresh_and_ids_nodup_witness :
    ReachableNodes (addNode [] 0 0 NodeStatus.Available) ∧
    ((addNode [] 0 0 NodeStatus.Available).map StoredNode.id).Nodup :=
  have hreach : ReachableNodes (addNode [] 0 0 NodeStatus.Available) :=
    ReachableNodes.add 0 0 NodeStatus.Available ReachableNodes.empty
  ⟨hreach, (nextId_fresh_and_ids_nodup [] _ hreach).2.2⟩

/-! The `removeNearest` scan: the accumulator after the loop holds a
position of minimal distance. -/

theorem bestScan_ne_none_of_some (x y : ℝ) (l : List StoredNode) :
    ∀ (i k : ℕ) (b : ℝ), bestScan x y l i (some (k, b)) ≠ none := by
  induction l with
  | nil => intro i k b h; exact Option.some_ne_none _ h
  | cons n rest ih =>
    intro i k b
    simp only [bestScan]
    by_cases hd : distTo n x y < b
    · rw [if_pos hd]; exact ih (i + 1) i (distTo n x y)
    · rw [if_neg hd]; exact ih (i + 1) k b

theorem bestScan_cons_ne_none (x y : ℝ) (n : StoredNode)
    (rest : List StoredNode) (i : ℕ) :
    bestScan x y (n :: rest) i none ≠ none := by
  simp only [bestScan]
  exact bestScan_ne_none_of_some x y rest (i + 1) i (distTo n x y)

theorem bestScan_spec (x y : ℝ) (l : List StoredNode) :
    ∀ (i : ℕ) (acc : Option (ℕ × ℝ)) (k : ℕ) (b : ℝ),
      bestScan x y l i acc = some (k, b) →
      (acc = some (k, b) ∨
        ∃ j, ∃ nj : StoredNode,
          l[j]? = some nj ∧ k = i + j ∧ b = distTo nj x y) ∧
      (∀ n ∈ l, b ≤ distTo n x y) ∧
      (∀ k₀ b₀, acc = some (k₀, b₀) → b ≤ b₀) := by
  induction l with
  | nil =>
    intro i acc k b h
    rw [bestScan] at h
    refine ⟨Or.inl h, ?_, ?_⟩
    · intro n hn; cases hn
    · intro k₀ b₀ h₀
      rw [h₀] at h
      simp only [Option.some.injEq, Prod.mk.injEq] at h
      exact le_of_eq h.2.symm
  | cons n rest ih =>
    intro i acc k b h
    simp only [bestScan] at h
    cases acc with
    | none =>
      obtain ⟨h1, h2, h3⟩ := ih (i + 1) (some (i, distTo n x y)) k b h
      refine ⟨?_, ?_, ?_⟩
      · rcases h1 with heq | ⟨j, nj, hnj, hk, hb⟩
        · simp only [Option.some.injEq, Prod.mk.injEq] at heq
          refine Or.inr ⟨0, n, by simp, by omega, heq.2.symm⟩
        · exact Or.inr ⟨j + 1, nj, by simpa using hnj, by omega, hb⟩
      · intro m hm
        rcases List.mem_cons.mp hm with rfl | hm
        · exact h3 i (distTo m x y) rfl
        · exact h2 m hm
      · intro k₀ b₀ h₀; cases h₀
    | some kb =>
      obtain ⟨k₀', b₀'⟩ := kb
      dsimp only at h
      by_cases hd : distTo n x y < b₀'
      · rw [if_pos hd] at h
        obtain ⟨h1, h2, h3⟩ := ih (i + 1) (some (i, distTo n x y)) k b h
        refine ⟨?_, ?_, ?_⟩
        · rcases h1 with heq | ⟨j, nj, hnj, hk, hb⟩
          · simp only [Option.some.injEq, Prod.mk.injEq] at heq
            refine Or.inr ⟨0, n, by simp, by omega, heq.2.symm⟩
          · exact Or.inr ⟨j + 1, nj, by simpa using hnj, by omega, hb⟩
        · intro m hm
          rcases List.mem_cons.mp hm with rfl | hm
          · exact h3 i (distTo m x y) rfl
          · exact h2 m hm
        · intro k₁ b₁ h₁
          simp only [Option.some.injEq, Prod.mk.injEq] at h₁
          have hb' : b ≤ distTo n x y := h3 i (distTo n x y) rfl
          rw [← h₁.2]
          exact le_trans hb' (le_of_lt hd)
      · rw [if_neg hd] at h
        obtain ⟨h1, h2, h3⟩ := ih (i + 1) (some (k₀', b₀')) k b h
        refine ⟨?_, ?_, ?_⟩
        · rcases h1 with heq | ⟨j, nj, hnj, hk, hb⟩
          · exact Or.inl heq
          · exact Or.inr ⟨j + 1, nj, by simpa using hnj, by omega, hb⟩
        · intro m hm
          rcases List.mem_cons.mp hm with rfl | hm
          · exact le_trans (h3 k₀' b₀' rfl) (le_of_not_lt hd)
          · exact h2 m hm
        · intro k₁ b₁ h₁
          simp only [Option.some.injEq, Prod.mk.injEq] at h₁
          rw [← h₁.2]
          exact h3 k₀' b₀' rfl

/-- C10: if some stored node lies within `maxDist` of the query point,
`removeNearest` removes exactly one node — one at minimal distance —
and returns its id; otherwise it returns `null` and leaves the store
unchanged. -/
theorem removeNearest_removes_nearest (l : List StoredNode)
    (x y maxDist : ℝ) :
    ((∃ n ∈ l, distTo n x y ≤ maxDist) →
      ∃ k nk, l[k]? = some nk ∧
        (∀ m ∈ l, distTo nk x y ≤ distTo m x y) ∧
        (removeNearest l x y maxDist).2 = some nk.id ∧
        (removeNearest l x y maxDist).1 = l.eraseIdx k ∧
        (removeNearest l x y maxDist).1.length + 1 = l.length) ∧
    ((∀ n ∈ l, ¬ distTo n x y ≤ maxDist) →
      (removeNearest l x y maxDist).2 = none ∧
      (removeNearest l x y maxDist).1 = l) := by
  constructor
  · rintro ⟨n₀, hn₀, hd₀⟩
    cases l with
    | nil => cases hn₀
    | cons nh rest =>
      cases hb : bestScan x y (nh :: rest) 0 none with
      | none => exact absurd hb (bestScan_cons_ne_none x y nh rest 0)
      | some kb =>
        obtain ⟨k, b⟩ := kb
        obtain ⟨h1, h2, h3⟩ := bestScan_spec x y (nh :: rest) 0 none k b hb
        rcases h1 with heq | ⟨j, nj, hnj, hk, hbj⟩
        · exact Option.noConfusion heq
        · have hkj : k = j := by omega
          subst hkj
          have hble : b ≤ maxDist := le_trans (h2 n₀ hn₀) hd₀
          have hklen : k < (nh :: rest).length := by
            by_contra hcon
            push_neg at hcon
            rw [List.getElem?_eq_none hcon] at hnj
            cases hnj
          have hR : removeNearest (nh :: rest) x y maxDist =
              ((nh :: rest).eraseIdx k, some nj.id) := by
            simp only [removeNearest, hb]
            rw [if_pos hble]
            simp only [hnj]
          refine ⟨k, nj, hnj, ?_, ?_, ?_, ?_⟩
          · intro m hm
            rw [← hbj]
            exact h2 m hm
          · rw [hR]
          · rw [hR]
          · rw [hR]
            simp only [List.length_eraseIdx, if_pos hklen]
            omega
  · intro hfar
    cases hb : bestScan x y l 0 none with
    | none =>
      simp [removeNearest, hb]
    | some kb =>
      obtain ⟨k, b⟩ := kb
      obtain ⟨h1, h2, h3⟩ := bestScan_spec x y l 0 none k b hb
      rcases h1 with heq | ⟨j, nj, hnj, hk, hbj⟩
      · exact Option.noConfusion heq
      · have hmem : nj ∈ l := List.getElem?_mem hnj
        have hnot : ¬ b ≤ maxDist := by
          rw [hbj]
          exact hfar nj hmem
        simp only [removeNearest, hb]
        rw [if_neg hnot]
        exact ⟨rfl, rfl⟩

/-- C10 witness: with a single node at `(3, 4)` (distance `5` from the
origin) and threshold `40`, `removeNearest` removes it and returns its
id. -/
theorem removeNearest_removes_nearest_witness :
    (∃ n ∈ ([⟨"N1", 3, 4, NodeStatus.Available⟩] : List StoredNode),
      distTo n 0 0 ≤ 40) ∧
    ∃ k nk,
      ([⟨"N1", 3, 4, NodeStatus.Available⟩] : List StoredNode)[k]? =
        some nk ∧
      (∀ m ∈ ([⟨"N1", 3, 4, NodeStatus.Available⟩] : List StoredNode),
        distTo nk 0 0 ≤ distTo m 0 0) ∧
      (removeNearest [⟨"N1", 3, 4, NodeStatus.Available⟩] 0 0 40).2 =
        some nk.id ∧
      (removeNearest [⟨"N1", 3, 4, NodeStatus.Available⟩] 0 0 40).1 =
        ([⟨"N1", 3, 4, NodeStatus.Available⟩] : List StoredNode).eraseIdx
          k ∧
      (removeNearest [⟨"N1", 3, 4, NodeStatus.Available⟩] 0 0 40).1.length
          + 1 =
        ([⟨"N1", 3, 4, NodeStatus.Available⟩] : List StoredNode).length := by
  have hd : distTo (⟨"N1", 3, 4, NodeStatus.Available⟩ : StoredNode)
      0 0 ≤ 40 := by
    rw [distTo, jsHypot]
    dsimp only
    have h25 : ((3 : ℝ) - 0) ^ 2 + ((4 : ℝ) - 0) ^ 2 = 5 ^ 2 := by
      norm_num
    rw [h25, Real.sqrt_sq (by norm_num)]
    norm_num
  have hex : ∃ n ∈ ([⟨"N1", 3, 4, NodeStatus.Available⟩] :
      List StoredNode), distTo n 0 0 ≤ 40 :=
    ⟨⟨"N1", 3, 4, NodeStatus.Available⟩, by simp, hd⟩
  exact ⟨hex,
    (removeNearest_removes_nearest [⟨"N1", 3, 4, NodeStatus.Available⟩]
      0 0 40).1 hex⟩

/-- C9 witness: the list obtained by adding the edge `("a", "b")` to a
fresh store is reachable, and it has no self-loop and distinct triples;
moreover adding the self-loop `("a", "a")` is a no-op. -/
theorem edge_store_invariants_witness :
    ReachableEdges (edgeAdd [] "a" "b" EdgeKind.curvy) ∧
    edgeAdd (edgeAdd [] "a" "b" EdgeKind.curvy) "a" "a" EdgeKind.linear =
      edgeAdd [] "a" "b" EdgeKind.curvy ∧
    (∀ e ∈ edgeAdd [] "a" "b" EdgeKind.curvy, e.efrom ≠ e.eto) := by
  have hreach : ReachableEdges (edgeAdd [] "a" "b" EdgeKind.curvy) :=
    ReachableEdges.add "a" "b" EdgeKind.curvy ReachableEdges.empty
  have h := edge_store_invariants (edgeAdd [] "a" "b" EdgeKind.curvy)
    "a" "a" EdgeKind.linear (edgeAdd [] "a" "b" EdgeKind.curvy) hreach
  exact ⟨hreach, h.1 rfl, h.2.2.1⟩

end TOL
